import Mathlib

/-!
Verification of the entity-storage engine (sled-backed adapter, key builder,
pool, metrics) against its specification.  The Rust source is shallowly
embedded: byte strings are `List Nat` (each entry a byte value), the two sled
trees (`data` and `index_…`) are sorted association lists scanned in key
order, bincode serialization is an abstract fallible codec, and machine
integers wrap with an explicit `% 2 ^ 64` where the source uses `u64`.
-/

namespace Bedrock

/-- Byte strings (`&[u8]` / `Vec<u8>` in the source). -/
abbrev Bytes := List Nat

/-- Strict lexicographic order on byte strings, exactly the order sled uses to
compare keys: the empty string precedes any non-empty one, otherwise compare
the leading bytes and recurse on a tie. -/
def blt : Bytes → Bytes → Bool
  | [], [] => false
  | [], _ :: _ => true
  | _ :: _, [] => false
  | a :: as, b :: bs => if a < b then true else if b < a then false else blt as bs

/-- Non-strict comparison derived from `blt`. -/
def ble (x y : Bytes) : Bool := !(blt y x)

/-- A sled `Tree`: an ordered key→bytes map, modelled as an association list
kept in strictly ascending key order. -/
abbrev Tree := List (Bytes × Bytes)

/-- Model of `Tree::get`: point lookup of a key. -/
def Tree.get : Tree → Bytes → Option Bytes
  | [], _ => none
  | (k', v') :: t, k => if k = k' then some v' else Tree.get t k

/-- Model of `Tree::insert` inside a transaction: store `v` under `k`, replacing any
previous value, keeping the tree ordered. -/
def Tree.put : Tree → Bytes → Bytes → Tree
  | [], k, v => [(k, v)]
  | (k', v') :: t, k, v =>
    if blt k k' then (k, v) :: (k', v') :: t
    else if blt k' k then (k', v') :: Tree.put t k v
    else (k, v) :: t

/-- Model of `Tree::remove`: drop the entry stored under `k`, if any. -/
def Tree.del : Tree → Bytes → Tree
  | [], _ => []
  | (k', v') :: t, k => if k = k' then t else (k', v') :: Tree.del t k

/-- Model of `Tree::range lo..hi`: the entries with `lo ≤ key < hi`, yielded in key
order; on the sorted list this is a seek past the keys below `lo` followed by
a scan while keys stay below `hi`. -/
def Tree.range (t : Tree) (lo hi : Bytes) : Tree :=
  (t.dropWhile (fun kv => blt kv.1 lo)).takeWhile (fun kv => blt kv.1 hi)

/-- The tree invariant sled maintains: keys strictly ascending. -/
def Tree.Ordered (t : Tree) : Prop := t.Pairwise (fun a b => blt a.1 b.1 = true)

/-- The error enum of the engine (`src/error.rs`), constructors as in the
source; payloads of `Store`/`Format`/`Join` are not modelled. -/
inductive Error where
  | Missing
  | Input
  | Store
  | Format
  | Aborted
  | Join
  | Timeout
  | Pool
  | Cache
  | Metric
  deriving DecidableEq, Repr

/-- A bincode codec for values of type `γ`: serialization and
deserialization may each fail (`Error::Format` in the source). -/
structure Codec (γ : Type) where
  ser : γ → Option Bytes
  deser : Bytes → Option γ

/-- The `Entity` contract (`src/entity.rs`): primary key, covering-index key
and summary projection, with byte-level codecs for the entity and its
summary.  `Key`/`Index` values are used only through `as_ref::<[u8]>`, so they
are modelled directly as byte strings. -/
structure Entity (γ σ : Type) where
  key : γ → Bytes
  index : γ → Bytes
  summary : γ → σ
  value : Codec γ
  brief : Codec σ

/-- The `Query` descriptor (`src/entity.rs`): `pre` is the source's `prefix`
field (a Lean keyword), `after` the pagination cursor, `limit` the result
cap. -/
structure Query where
  pre : Bytes
  after : Option Bytes
  limit : Nat

/-- The per-entity storage state of `Sled`: the Data Tree (`E::NAME`) and the
Index Tree (`"index_" + E::NAME`). -/
structure Sled where
  data : Tree
  index : Tree

/-- The empty store: both trees empty. -/
def Sled.empty : Sled := ⟨[], []⟩

variable {γ σ : Type}

/-- Model of `Sled::insert` (`src/sled.rs:116`): serialize the entity and its summary
(`Error::Format` aborts before any write), then, in one atomic transaction,
write the data entry and the index entry.  On failure the state is returned
unchanged, matching the all-or-nothing transaction. -/
def Sled.insert (E : Entity γ σ) (e : γ) (s : Sled) : Sled × Option Error :=
  match E.value.ser e with
  | none => (s, some .Format)
  | some bytes =>
    match E.brief.ser (E.summary e) with
    | none => (s, some .Format)
    | some sum =>
      ({ data := Tree.put s.data (E.key e) bytes,
         index := Tree.put s.index (E.index e) sum }, none)

/-- Model of `Sled::fetch` (`src/sled.rs:152`): point lookup in the Data Tree; absent
keys yield `Ok(None)`, a value that fails to deserialize yields
`Error::Format`. -/
def Sled.fetch (E : Entity γ σ) (k : Bytes) (s : Sled) : Except Error (Option γ) :=
  match Tree.get s.data k with
  | none => .ok none
  | some ivec =>
    match E.value.deser ivec with
    | none => .error .Format
    | some e => .ok (some e)

/-- Model of `Sled::update` (`src/sled.rs:174`): read the current entity (`Missing` if
absent), apply the pure transform, then in one transaction: if the index key
changed, remove the stale index entry and insert the fresh summary; always
rewrite the data entry; return the transformed entity.  Serialization
failures abort the transaction (`Error::Format`), leaving the state
unchanged. -/
def Sled.update (E : Entity γ σ) (k : Bytes) (f : γ → γ) (s : Sled) :
    Sled × Except Error γ :=
  match Tree.get s.data k with
  | none => (s, .error .Missing)
  | some buffer =>
    match E.value.deser buffer with
    | none => (s, .error .Format)
    | some before =>
      let after := f before
      let stale := E.index before
      let fresh := E.index after
      if stale = fresh then
        match E.value.ser after with
        | none => (s, .error .Format)
        | some bytes =>
          ({ data := Tree.put s.data k bytes, index := s.index }, .ok after)
      else
        match E.brief.ser (E.summary after) with
        | none => (s, .error .Format)
        | some sum =>
          match E.value.ser after with
          | none => (s, .error .Format)
          | some bytes =>
            ({ data := Tree.put s.data k bytes,
               index := Tree.put (Tree.del s.index stale) fresh sum }, .ok after)

/-- Model of `Sled::delete` (`src/sled.rs:232`): in one transaction, read the entity
under `k` (`Missing` aborts if absent, `Format` if it fails to deserialize),
remove the data entry and the index entry at its current `index()`, and
return the deleted entity. -/
def Sled.delete (E : Entity γ σ) (k : Bytes) (s : Sled) : Sled × Except Error γ :=
  match Tree.get s.data k with
  | none => (s, .error .Missing)
  | some buffer =>
    match E.value.deser buffer with
    | none => (s, .error .Format)
    | some e =>
      ({ data := Tree.del s.data k, index := Tree.del s.index (E.index e) }, .ok e)

/-- The upper bound of the query range (`src/sled.rs:289`): a copy of the
prefix with its last byte bumped by `saturating_add(1)`. -/
def bump : Bytes → Bytes
  | [] => []
  | [b] => [min (b + 1) 255]
  | b :: c :: r => b :: bump (c :: r)

/-- The `after`-cursor skip loop (`src/sled.rs:304`): consume entries until
one whose key equals the cursor has been consumed; if the cursor never
matches, the whole scan is consumed. -/
def chop (a : Bytes) : Tree → Tree
  | [] => []
  | kv :: t => if kv.1 = a then t else chop a t

/-- The base scan of `query` (`src/sled.rs:295`): the whole Index Tree when
the prefix is empty, otherwise the range from the prefix (inclusive) to the
bumped prefix (exclusive). -/
def Sled.ranged (p : Bytes) (t : Tree) : Tree :=
  if bump p = [] then t else Tree.range t p (bump p)

/-- The entries `query` walks after applying the `after` cursor. -/
def Sled.scan (q : Query) (t : Tree) : Tree :=
  match q.after with
  | none => Sled.ranged q.pre t
  | some a => chop a (Sled.ranged q.pre t)

/-- Deserialization of one index value into a summary (`src/sled.rs:315`):
a malformed entry yields an `Err` item rather than aborting the scan. -/
def deserItem (E : Entity γ σ) (kv : Bytes × Bytes) : Except Error σ :=
  match E.brief.deser kv.2 with
  | none => .error .Format
  | some x => .ok x

/-- Model of `Sled::query` (`src/sled.rs:276`): range-scan the Index Tree, skip past
the cursor, take at most `limit` entries and deserialize each value into a
summary.  The Data Tree is never consulted. -/
def Sled.query (E : Entity γ σ) (q : Query) (s : Sled) : List (Except Error σ) :=
  ((Sled.scan q s.index).take q.limit).map (deserItem E)

/-- Batch chunk size (`src/sled.rs:26`). -/
def CHUNK : Nat := 1000

/-- One chunk of `mass`: insert the entities in order, stopping at — and
returning — the first failure, keeping the state reached so far. -/
def Sled.insertAll (E : Entity γ σ) : List γ → Sled → Sled × Option Error
  | [], s => (s, none)
  | e :: rest, s =>
    match Sled.insert E e s with
    | (s', none) => Sled.insertAll E rest s'
    | (s', some err) => (s', some err)

/-- Model of `Sled::mass` (`src/sled.rs:327`): consume the input in chunks of `CHUNK`
entities, inserting each one; a short chunk ends the loop, and any failed
insert aborts the remainder. -/
def Sled.mass (E : Entity γ σ) (l : List γ) (s : Sled) : Sled × Option Error :=
  if _h : (l.take CHUNK).length = 0 then (s, none)
  else
    match Sled.insertAll E (l.take CHUNK) s with
    | (s', some err) => (s', some err)
    | (s', none) =>
      if (l.take CHUNK).length < CHUNK then (s', none)
      else Sled.mass E (l.drop CHUNK) s'
termination_by l.length
decreasing_by
  simp only [List.length_drop]
  have h1 : (l.take CHUNK).length = min CHUNK l.length := List.length_take CHUNK l
  have h2 : ¬ (l.take CHUNK).length < CHUNK := by assumption
  have h3 : CHUNK ≤ l.length := by
    by_contra hc
    exact h2 (by rw [h1]; omega)
  have h4 : 0 < CHUNK := by decide
  omega

/-- Big-endian encoding of `n` on `w` bytes, most significant byte first —
`u128::to_be_bytes` is `beBytes 16`. -/
def beBytes : Nat → Nat → Bytes
  | 0, _ => []
  | w + 1, n => (n / 256 ^ w) % 256 :: beBytes w (n % 256 ^ w)

/-- Model of `u128::MAX`. -/
def UMAX : Nat := 2 ^ 128 - 1

/-- The key-builder state (`src/entity.rs`): an append-only byte buffer. -/
abbrev Key := Bytes

/-- Model of `Key::time` (`src/entity.rs:89`): append the 16-byte big-endian encoding
of the reversed timestamp `u128::MAX - value`.  `value` is a `u128`, so the
subtraction never underflows. -/
def Key.time (k : Key) (value : Nat) : Key := k ++ beBytes 16 (UMAX - value)

/-- Model of `Key::flag` (`src/entity.rs:82`): append a boolean as one byte. -/
def Key.flag (k : Key) (value : Bool) : Key := k ++ [if value then 1 else 0]

/-- Model of `Key::byte` (`src/entity.rs:103`): append one raw byte. -/
def Key.byte (k : Key) (value : Nat) : Key := k ++ [value % 256]

/-- The pool of pre-created handles (`src/pool.rs`): the handle vector and
the total permit count of its semaphore. -/
structure Pool (T : Type) where
  conn : List T
  size : Nat

/-- The eager construction loop of `Pool::new`: call `init` once per slot,
aborting on the first failure. -/
def Pool.build {T : Type} (init : Nat → Except Error T) : Nat → Nat → Except Error (List T)
  | _, 0 => .ok []
  | i, n + 1 =>
    match init i with
    | .error e => .error e
    | .ok c =>
      match Pool.build init (i + 1) n with
      | .error e => .error e
      | .ok rest => .ok (c :: rest)

/-- Model of `Pool::new` (`src/pool.rs:21`): eagerly create `size` handles; any `init`
failure aborts construction. -/
def Pool.new (T : Type) (size : Nat) (init : Nat → Except Error T) : Except Error (Pool T) :=
  match Pool.build init 0 size with
  | .error e => .error e
  | .ok conn => .ok ⟨conn, size⟩

/-- The value a successful `Pool::get` hands out (`src/pool.rs:36`): a clone
of handle index 0 (`self.conn[0].clone()`), regardless of which permit was
acquired. -/
def Pool.got {T : Type} (p : Pool T) : Option T := p.conn.get? 0

/-- A snapshot of the pool's concurrency state: `avail` counts free
semaphore permits, `holding` the callers currently inside `get` between the
`acquire` and the return (where the `_permit` guard is dropped), and
`checkouts` the handles returned by completed `get` calls and not yet dropped
by their callers. -/
structure PoolState where
  size : Nat
  avail : Nat
  holding : Nat
  checkouts : Nat
  deriving DecidableEq, Repr

/-- The state right after `Pool::new(size, _)` succeeds: all permits free,
nobody inside `get`, nothing checked out. -/
def poolInit (n : Nat) : PoolState := ⟨n, n, 0, 0⟩

/-- The events of `Pool` as written in `src/pool.rs:34-37`:
`acquire` — a caller inside `get` obtains a permit (possible only while one
is free); `ret` — `get` returns: the `_permit` local is dropped, releasing
the permit, while the cloned handle becomes an outstanding checkout;
`fin` — a caller drops its cloned handle, which does not touch the
semaphore. -/
inductive PoolStep : PoolState → PoolState → Prop where
  | acquire (s : PoolState) (h : 0 < s.avail) :
      PoolStep s { s with avail := s.avail - 1, holding := s.holding + 1 }
  | ret (s : PoolState) (h : 0 < s.holding) :
      PoolStep s { s with avail := s.avail + 1, holding := s.holding - 1,
                          checkouts := s.checkouts + 1 }
  | fin (s : PoolState) (h : 0 < s.checkouts) :
      PoolStep s { s with checkouts := s.checkouts - 1 }

/-- Reachability of pool states by interleaved callers. -/
def PoolReach (a b : PoolState) : Prop := Relation.ReflTransGen PoolStep a b

/-- A metric's three `AtomicU64` counters
(`crates/kernel/src/metric.rs:17`). -/
structure Metric where
  time : Nat
  count : Nat
  fail : Nat
  deriving DecidableEq, Repr

/-- Model of `Metric::new`: all counters start at zero. -/
def Metric.new : Metric := ⟨0, 0, 0⟩

/-- Model of `Metric::record` (`crates/kernel/src/metric.rs:64`): add the elapsed
nanoseconds into `time` and bump `fail` or `count`; the counters are `u64`,
so they wrap modulo `2 ^ 64`. -/
def Metric.record (m : Metric) (elapsed : Nat) (failed : Bool) : Metric :=
  if failed then
    { m with time := (m.time + elapsed) % 2 ^ 64, fail := (m.fail + 1) % 2 ^ 64 }
  else
    { m with time := (m.time + elapsed) % 2 ^ 64, count := (m.count + 1) % 2 ^ 64 }

/-- The numbers `Metric::stats` (`crates/kernel/src/metric.rs:77`) formats:
`none` models the "no data yet" string when `count + fail` wraps to zero,
otherwise the total, the success and failure counts and the average latency
`time / count` (zero when there is no success). -/
def Metric.stats (m : Metric) : Option (Nat × Nat × Nat × Nat) :=
  if (m.count + m.fail) % 2 ^ 64 = 0 then none
  else some ((m.count + m.fail) % 2 ^ 64, m.count, m.fail,
             if 0 < m.count then m.time / m.count else 0)

/-- The registry's name→metric map (`crates/kernel/src/metric.rs:41`). -/
def Registry := List (String × Metric)

/-- Lookup of a named metric in the registry map. -/
def Registry.find : Registry → String → Option Metric
  | [], _ => none
  | (n, m) :: r, name => if n = name then some m else Registry.find r name

/-- The uncontended path of `Registry::record`: `entry(name).or_insert` a
fresh metric, then record into it. -/
def Registry.touch : Registry → String → Nat → Bool → Registry
  | [], name, elapsed, failed => [(name, Metric.record Metric.new elapsed failed)]
  | (n, m) :: r, name, elapsed, failed =>
    if n = name then (n, Metric.record m elapsed failed) :: r
    else (n, m) :: Registry.touch r name elapsed failed

/-- Model of `Registry::record` (`crates/kernel/src/metric.rs:118`): `try_write` the
map; under contention (`contended = true`) the sample goes into a freshly
created throwaway `Metric` and the registry is left untouched, otherwise the
named metric is updated in place. -/
def Registry.record (r : Registry) (name : String) (elapsed : Nat) (failed : Bool)
    (contended : Bool) : Registry :=
  if contended then r
  else Registry.touch r name elapsed failed

/-- A total byte codec on `Nat` used to instantiate the contract in
witnesses: one byte per value. -/
def natCodec : Codec Nat :=
  ⟨fun n => some [n], fun l => match l with | [x] => some x | _ => none⟩

/-- A concrete model entity for witnesses: key `[0, n]`, index `[1, n]`,
summary the value itself. -/
def demo : Entity Nat Nat :=
  { key := fun n => [0, n], index := fun n => [1, n], summary := fun n => n,
    value := natCodec, brief := natCodec }

/-- Model of `Registry::new` (`crates/kernel/src/metric.rs:109`): the empty map. -/
def Registry.new : Registry := []

/-- A timestamp-indexed model entity: the value doubles as its creation time
and the index is the reversed-timestamp key under prefix `[1, 0]`. -/
def timed : Entity Nat Nat :=
  { key := fun n => [0, n], index := fun n => Key.time [1, 0] n, summary := fun n => n,
    value := natCodec, brief := natCodec }

/-- An entity whose value codec rejects the value 13: used to exercise the
failure path of `mass`. -/
def fussy : Entity Nat Nat :=
  { key := fun n => [0, n], index := fun n => [1, n], summary := fun n => n,
    value := ⟨fun n => if n = 13 then none else some [n],
              fun l => match l with | [x] => some x | _ => none⟩,
    brief := natCodec }

theorem blt_irrefl (x : Bytes) : blt x x = false := by
  induction x with
  | nil => rfl
  | cons a as ih => simp [blt, ih]

theorem blt_trans {x y z : Bytes} (h₁ : blt x y = true) (h₂ : blt y z = true) :
    blt x z = true := by
  induction x generalizing y z with
  | nil =>
    cases z with
    | nil => cases y with
      | nil => exact absurd h₁ (by simp [blt])
      | cons b bs => exact absurd h₂ (by simp [blt])
    | cons c cs => simp [blt]
  | cons a as ih =>
    cases y with
    | nil => exact absurd h₁ (by simp [blt])
    | cons b bs =>
      cases z with
      | nil => exact absurd h₂ (by simp [blt])
      | cons c cs =>
        simp only [blt] at h₁ h₂ ⊢
        by_cases hab : a < b
        · by_cases hbc : b < c
          · simp [Nat.lt_trans hab hbc]
          · simp only [if_pos hab] at h₁
            by_cases hcb : c < b
            · exact absurd h₂ (by simp [hbc, hcb])
            · have : b = c := Nat.le_antisymm (Nat.le_of_not_lt hcb) (Nat.le_of_not_lt hbc)
              subst this
              simp [hab]
        · by_cases hba : b < a
          · exact absurd h₁ (by simp [hab, hba])
          · have hab' : a = b := Nat.le_antisymm (Nat.le_of_not_lt hba) (Nat.le_of_not_lt hab)
            subst hab'
            simp only [if_neg hab, Nat.lt_irrefl, if_neg (Nat.lt_irrefl a)] at h₁
            by_cases hac : a < c
            · simp [hac]
            · by_cases hca : c < a
              · exact absurd h₂ (by simp [hac, hca])
              · have : a = c := Nat.le_antisymm (Nat.le_of_not_lt hca) (Nat.le_of_not_lt hac)
                subst this
                simp only [if_neg (Nat.lt_irrefl a)] at h₂ ⊢
                exact ih h₁ h₂

theorem blt_connex {x y : Bytes} (h₁ : blt x y = false) (h₂ : blt y x = false) :
    x = y := by
  induction x generalizing y with
  | nil =>
    cases y with
    | nil => rfl
    | cons b bs => exact absurd h₁ (by simp [blt])
  | cons a as ih =>
    cases y with
    | nil => exact absurd h₂ (by simp [blt])
    | cons b bs =>
      simp only [blt] at h₁ h₂
      by_cases hab : a < b
      · exact absurd h₁ (by simp [hab])
      · by_cases hba : b < a
        · exact absurd h₂ (by simp [hab, hba])
        · have hab' : a = b := Nat.le_antisymm (Nat.le_of_not_lt hba) (Nat.le_of_not_lt hab)
          subst hab'
          simp only [if_neg (Nat.lt_irrefl a)] at h₁ h₂
          rw [ih h₁ h₂]

theorem blt_asymm {x y : Bytes} (h : blt x y = true) : blt y x = false := by
  by_contra hyx
  have hyx' : blt y x = true := by
    cases hxy : blt y x with
    | false => exact absurd hxy hyx
    | true => rfl
  have := blt_trans h hyx'
  rw [blt_irrefl] at this
  exact Bool.noConfusion this

theorem blt_ne {x y : Bytes} (h : blt x y = true) : x ≠ y := by
  intro he
  subst he
  rw [blt_irrefl] at h
  exact Bool.noConfusion h

/-- Comparing two strings that share a common prefix reduces to comparing the
suffixes. -/
theorem blt_append_left (x u v : Bytes) : blt (x ++ u) (x ++ v) = blt u v := by
  induction x with
  | nil => rfl
  | cons a as ih => simp [blt, ih]

theorem Tree.get_put_self (t : Tree) (k v : Bytes) : Tree.get (Tree.put t k v) k = some v := by
  induction t with
  | nil => simp [Tree.put, Tree.get]
  | cons kv t ih =>
    obtain ⟨k', v'⟩ := kv
    by_cases h₁ : blt k k' = true
    · simp [Tree.put, h₁, Tree.get]
    · by_cases h₂ : blt k' k = true
      · have hne : k ≠ k' := fun he => blt_ne h₂ he.symm
        simp [Tree.put, h₁, h₂, Tree.get, hne, ih]
      · have he : k' = k := blt_connex (Bool.eq_false_iff.mpr h₂) (Bool.eq_false_iff.mpr h₁)
        simp [Tree.put, h₁, h₂, Tree.get]

theorem Tree.get_put_ne (t : Tree) (k v j : Bytes) (h : j ≠ k) :
    Tree.get (Tree.put t k v) j = Tree.get t j := by
  induction t with
  | nil => simp [Tree.put, Tree.get, h]
  | cons kv t ih =>
    obtain ⟨k', v'⟩ := kv
    by_cases h₁ : blt k k' = true
    · simp [Tree.put, h₁, Tree.get, h]
    · by_cases h₂ : blt k' k = true
      · simp only [Tree.put, h₁, h₂]
        simp only [Bool.false_eq_true, if_false, if_true, Tree.get]
        by_cases hj : j = k'
        · simp [hj]
        · simp [hj, ih]
      · have he : k' = k := blt_connex (Bool.eq_false_iff.mpr h₂) (Bool.eq_false_iff.mpr h₁)
        subst he
        simp [Tree.put, h₁, h₂, Tree.get, h]

theorem Tree.get_del_ne (t : Tree) (k j : Bytes) (h : j ≠ k) :
    Tree.get (Tree.del t k) j = Tree.get t j := by
  induction t with
  | nil => rfl
  | cons kv t ih =>
    obtain ⟨k', v'⟩ := kv
    by_cases hk : k = k'
    · subst hk
      simp [Tree.del, Tree.get, h]
    · by_cases hj : j = k'
      · simp [Tree.del, hk, Tree.get, hj]
      · simp [Tree.del, hk, Tree.get, hj, ih]

theorem Tree.get_eq_none_of_not_mem {t : Tree} {k : Bytes} (h : k ∉ t.map Prod.fst) :
    Tree.get t k = none := by
  induction t with
  | nil => rfl
  | cons kv t ih =>
    simp only [List.map_cons, List.mem_cons, not_or] at h
    simp [Tree.get, h.1, ih h.2]

theorem Tree.nodup_keys {t : Tree} (h : Tree.Ordered t) : (t.map Prod.fst).Nodup := by
  induction t with
  | nil => simp
  | cons kv t ih =>
    rw [Tree.Ordered, List.pairwise_cons] at h
    simp only [List.map_cons, List.nodup_cons]
    refine ⟨?_, ih h.2⟩
    intro hmem
    obtain ⟨ab, hab, he⟩ := List.mem_map.mp hmem
    have := h.1 ab hab
    rw [he] at this
    exact blt_ne this rfl

theorem Tree.get_del_self {t : Tree} (k : Bytes) (h : (t.map Prod.fst).Nodup) :
    Tree.get (Tree.del t k) k = none := by
  induction t with
  | nil => rfl
  | cons kv t ih =>
    obtain ⟨k', v'⟩ := kv
    simp only [List.map_cons, List.nodup_cons] at h
    by_cases hk : k = k'
    · subst hk
      simp only [Tree.del, if_pos rfl]
      exact Tree.get_eq_none_of_not_mem h.1
    · simp [Tree.del, hk, Tree.get, ih h.2]

/-- Every entry of `put t k v` is an entry of `t` or the new pair. -/
theorem Tree.mem_or_eq_of_mem_put {t : Tree} {k v : Bytes} {b : Bytes × Bytes}
    (hb : b ∈ Tree.put t k v) : b ∈ t ∨ b = (k, v) := by
  induction t with
  | nil =>
    simp only [Tree.put, List.mem_singleton] at hb
    exact Or.inr hb
  | cons kv t ih =>
    obtain ⟨k', v'⟩ := kv
    by_cases h₁ : blt k k' = true
    · rw [Tree.put, if_pos h₁] at hb
      rcases List.mem_cons.mp hb with he | hb'
      · exact Or.inr he
      · exact Or.inl hb'
    · by_cases h₂ : blt k' k = true
      · rw [Tree.put, if_neg (by simp [h₁]), if_pos h₂] at hb
        rcases List.mem_cons.mp hb with he | hb'
        · exact Or.inl (List.mem_cons.mpr (Or.inl he))
        · rcases ih hb' with hm | he
          · exact Or.inl (List.mem_cons.mpr (Or.inr hm))
          · exact Or.inr he
      · rw [Tree.put, if_neg (by simp [h₁]), if_neg (by simp [h₂])] at hb
        rcases List.mem_cons.mp hb with he | hb'
        · exact Or.inr he
        · exact Or.inl (List.mem_cons.mpr (Or.inr hb'))

theorem Tree.ordered_put {t : Tree} (k v : Bytes) (h : Tree.Ordered t) :
    Tree.Ordered (Tree.put t k v) := by
  induction t with
  | nil =>
    simp [Tree.put, Tree.Ordered]
  | cons kv t ih =>
    obtain ⟨k', v'⟩ := kv
    rw [Tree.Ordered, List.pairwise_cons] at h
    by_cases h₁ : blt k k' = true
    · simp only [Tree.put, h₁, if_true]
      rw [Tree.Ordered, List.pairwise_cons]
      refine ⟨?_, h.2.cons h.1⟩
      intro b hb
      rcases List.mem_cons.mp hb with he | hb'
      · rw [he]; exact h₁
      · exact blt_trans h₁ (h.1 b hb')
    · by_cases h₂ : blt k' k = true
      · simp only [Tree.put, h₁, h₂, Bool.false_eq_true, if_false, if_true]
        rw [Tree.Ordered, List.pairwise_cons]
        constructor
        · intro b hb
          rcases Tree.mem_or_eq_of_mem_put hb with hb' | he
          · exact h.1 b hb'
          · rw [he]; exact h₂
        · exact ih h.2
      · have he : k' = k := blt_connex (Bool.eq_false_iff.mpr h₂) (Bool.eq_false_iff.mpr h₁)
        subst he
        simp only [Tree.put, h₁, h₂, Bool.false_eq_true, if_false]
        rw [Tree.Ordered, List.pairwise_cons]
        exact ⟨fun b hb => h.1 b hb, h.2⟩

/-- Inserting a key that is not yet present permutes the cons. -/
theorem Tree.put_perm {t : Tree} (k v : Bytes) (h : k ∉ t.map Prod.fst) :
    List.Perm (Tree.put t k v) ((k, v) :: t) := by
  induction t with
  | nil => rw [Tree.put]
  | cons kv t ih =>
    obtain ⟨k', v'⟩ := kv
    simp only [List.map_cons, List.mem_cons, not_or] at h
    by_cases h₁ : blt k k' = true
    · rw [Tree.put, if_pos h₁]
    · by_cases h₂ : blt k' k = true
      · rw [Tree.put, if_neg (by simp [h₁]), if_pos h₂]
        exact ((ih h.2).cons _).trans (List.Perm.swap _ _ _)
      · exact absurd (blt_connex (Bool.eq_false_iff.mpr h₂) (Bool.eq_false_iff.mpr h₁)).symm h.1

/-- On a list sorted by `r`, dropping the longest prefix satisfying a
downward-closed predicate is the same as filtering it away everywhere. -/
theorem dropWhile_eq_filter_not {γ : Type} (r : γ → γ → Prop) (p : γ → Bool)
    (hdc : ∀ a b, r a b → p b = true → p a = true) :
    ∀ l : List γ, l.Pairwise r → l.dropWhile p = l.filter (fun x => !p x) := by
  intro l hl
  induction l with
  | nil => rfl
  | cons a l ih =>
    rw [List.pairwise_cons] at hl
    by_cases hp : p a = true
    · rw [List.dropWhile_cons_of_pos hp, List.filter_cons_of_neg (by simp [hp])]
      exact ih hl.2
    · rw [List.dropWhile_cons_of_neg hp, List.filter_cons_of_pos (by simp [hp])]
      have : ∀ b ∈ l, (fun x => !p x) b = true := by
        intro b hb
        by_cases hpb : p b = true
        · exact absurd (hdc a b (hl.1 b hb) hpb) hp
        · simp [hpb]
      rw [List.filter_eq_self.mpr this]

/-- On a list sorted by `r`, taking the longest prefix satisfying a
downward-closed predicate is the same as filtering on it. -/
theorem takeWhile_eq_filter {γ : Type} (r : γ → γ → Prop) (p : γ → Bool)
    (hdc : ∀ a b, r a b → p b = true → p a = true) :
    ∀ l : List γ, l.Pairwise r → l.takeWhile p = l.filter p := by
  intro l hl
  induction l with
  | nil => rfl
  | cons a l ih =>
    rw [List.pairwise_cons] at hl
    by_cases hp : p a = true
    · rw [List.takeWhile_cons_of_pos hp, List.filter_cons_of_pos hp]
      rw [ih hl.2]
    · rw [List.takeWhile_cons_of_neg hp, List.filter_cons_of_neg hp]
      have : ∀ b ∈ l, p b = false := by
        intro b hb
        by_cases hpb : p b = true
        · exact absurd (hdc a b (hl.1 b hb) hpb) hp
        · simpa using hpb
      rw [List.filter_eq_nil_iff.mpr (by intro b hb; simp [this b hb])]

/-- On an ordered tree, the sled range scan `lo..hi` yields exactly the
entries whose key lies in the half-open interval, in stored order. -/
theorem Tree.range_eq_filter (t : Tree) (lo hi : Bytes) (h : Tree.Ordered t) :
    Tree.range t lo hi = t.filter (fun kv => ble lo kv.1 && blt kv.1 hi) := by
  rw [Tree.range]
  have hd := dropWhile_eq_filter_not (fun a b : Bytes × Bytes => blt a.1 b.1 = true)
    (fun kv => blt kv.1 lo) (fun a b hr hp => blt_trans hr hp) t h
  have hfp : (t.filter (fun x => !blt x.1 lo)).Pairwise
      (fun a b : Bytes × Bytes => blt a.1 b.1 = true) := h.filter _
  have ht := takeWhile_eq_filter (fun a b : Bytes × Bytes => blt a.1 b.1 = true)
    (fun kv => blt kv.1 hi) (fun a b hr hp => blt_trans hr hp) _ hfp
  rw [hd, ht, List.filter_filter]
  apply List.filter_congr
  intro kv _
  simp [ble, Bool.and_comm]

theorem insert_unfold {γ σ : Type} (E : Entity γ σ) (e : γ) (s : Sled) (b sb : Bytes)
    (hser : E.value.ser e = some b) (hsum : E.brief.ser (E.summary e) = some sb) :
    Sled.insert E e s =
      ({ data := Tree.put s.data (E.key e) b,
         index := Tree.put s.index (E.index e) sb }, none) := by
  rw [Sled.insert, hser, hsum]

/-- C1: `insert(e)` writes, in its one transaction, exactly the Data Tree
entry `e.key() → bytes(e)` and the Index Tree entry
`e.index() → bytes(e.summary())`, and immediately afterwards
`fetch(e.key())` returns `Some(e)` (given that bincode serializes `e` and
its summary and round-trips `e`). -/
theorem C1_insert_fetch_roundtrip {γ σ : Type} (E : Entity γ σ) (e : γ) (s : Sled)
    (b sb : Bytes)
    (hser : E.value.ser e = some b) (hrt : E.value.deser b = some e)
    (hsum : E.brief.ser (E.summary e) = some sb) :
    Sled.insert E e s =
      ({ data := Tree.put s.data (E.key e) b,
         index := Tree.put s.index (E.index e) sb }, none)
    ∧ Sled.fetch E (E.key e) (Sled.insert E e s).1 = .ok (some e) := by
  have h1 := insert_unfold E e s b sb hser hsum
  refine ⟨h1, ?_⟩
  rw [h1]
  simp only [Sled.fetch, Tree.get_put_self, hrt]

/-- Witness for C1 on the concrete entity `demo` at value 5 over an
arbitrary non-empty prior store. -/
theorem C1_witness :
    Sled.fetch demo (demo.key 5) (Sled.insert demo 5 ⟨[([9], [9])], []⟩).1
      = .ok (some 5) :=
  (C1_insert_fetch_roundtrip demo 5 ⟨[([9], [9])], []⟩ [5] [5] rfl rfl rfl).2

/-- C2: with a stored entity `p` under `k`, `update(k, f)` returns `f(p)`,
afterwards `fetch(k)` yields `Some(f(p))`; when `f` changes the index key the
stale index entry is gone, exactly the fresh one (holding the serialized
`f(p).summary()`) is present and every other index key is untouched; when
the index is unchanged the Index Tree is left untouched; and `update` of an
absent key fails with `Missing`, leaving the store unchanged. -/
theorem C2_update_transform {γ σ : Type} (E : Entity γ σ) (s : Sled) (k : Bytes)
    (f : γ → γ) (buf b' sb : Bytes) (p : γ)
    (hord : Tree.Ordered s.index)
    (hget : Tree.get s.data k = some buf) (hdes : E.value.deser buf = some p)
    (hser : E.value.ser (f p) = some b') (hrt : E.value.deser b' = some (f p))
    (hsum : E.brief.ser (E.summary (f p)) = some sb) :
    ((Sled.update E k f s).2 = .ok (f p)
      ∧ Sled.fetch E k (Sled.update E k f s).1 = .ok (some (f p))
      ∧ (E.index (f p) ≠ E.index p →
          Tree.get (Sled.update E k f s).1.index (E.index p) = none
          ∧ Tree.get (Sled.update E k f s).1.index (E.index (f p)) = some sb
          ∧ ∀ j, j ≠ E.index p → j ≠ E.index (f p) →
              Tree.get (Sled.update E k f s).1.index j = Tree.get s.index j)
      ∧ (E.index (f p) = E.index p → (Sled.update E k f s).1.index = s.index))
    ∧ (∀ (s' : Sled), Tree.get s'.data k = none →
        Sled.update E k f s' = (s', .error .Missing)) := by
  constructor
  · by_cases hch : E.index p = E.index (f p)
    · have hu : Sled.update E k f s =
          ({ data := Tree.put s.data k b', index := s.index }, .ok (f p)) := by
        rw [Sled.update, hget]
        simp only [hdes, if_pos hch, hser]
      refine ⟨by rw [hu], ?_, ?_, ?_⟩
      · rw [hu]
        simp only [Sled.fetch, Tree.get_put_self, hrt]
      · intro hne
        exact absurd hch.symm hne
      · intro _
        rw [hu]
    · have hu : Sled.update E k f s =
          ({ data := Tree.put s.data k b',
             index := Tree.put (Tree.del s.index (E.index p)) (E.index (f p)) sb },
           .ok (f p)) := by
        rw [Sled.update, hget]
        simp only [hdes, if_neg hch, hsum, hser]
      refine ⟨by rw [hu], ?_, ?_, ?_⟩
      · rw [hu]
        simp only [Sled.fetch, Tree.get_put_self, hrt]
      · intro hne
        refine ⟨?_, ?_, ?_⟩
        · rw [hu]
          simp only
          rw [Tree.get_put_ne _ _ _ _ hch,
            Tree.get_del_self _ (Tree.nodup_keys hord)]
        · rw [hu]
          simp only
          rw [Tree.get_put_self]
        · intro j hj1 hj2
          rw [hu]
          simp only
          rw [Tree.get_put_ne _ _ _ _ hj2, Tree.get_del_ne _ _ _ hj1]
      · intro he
        exact absurd he.symm hch
  · intro s' hnone
    rw [Sled.update, hnone]

/-- Witness for C2 on `demo`: store holds entity 5, transform adds 1 (which
moves the index from `[1,5]` to `[1,6]`); plus the `Missing` case on an
empty store. -/
theorem C2_witness :
    ((Sled.update demo [0, 5] (fun n => n + 1)
        ⟨[([0, 5], [5])], [([1, 5], [5])]⟩).2 = .ok 6
      ∧ Tree.get (Sled.update demo [0, 5] (fun n => n + 1)
          ⟨[([0, 5], [5])], [([1, 5], [5])]⟩).1.index [1, 5] = none)
    ∧ Sled.update demo [0, 5] (fun n => n + 1) Sled.empty
        = (Sled.empty, .error .Missing) := by
  have h := C2_update_transform demo ⟨[([0, 5], [5])], [([1, 5], [5])]⟩ [0, 5]
    (fun n => n + 1) [5] [6] [6] 5 (by simp [Tree.Ordered]) rfl rfl rfl rfl rfl
  exact ⟨⟨h.1.1, (h.1.2.2.1 (by decide)).1⟩, h.2 Sled.empty rfl⟩

/-- C3: `delete(k)` on a stored entity `e` removes, in its one transaction,
both the data entry and the index entry at `e.index()` and returns `e`:
afterwards `fetch(k)` is `None` and no index entry at `e.index()` remains;
deleting an absent key fails with `Missing` and returns the store
unchanged. -/
theorem C3_delete_complete {γ σ : Type} (E : Entity γ σ) (s : Sled) (k buf : Bytes)
    (e : γ)
    (hordd : Tree.Ordered s.data) (hord : Tree.Ordered s.index)
    (hget : Tree.get s.data k = some buf) (hdes : E.value.deser buf = some e) :
    (Sled.delete E k s
        = ({ data := Tree.del s.data k, index := Tree.del s.index (E.index e) }, .ok e)
      ∧ Sled.fetch E k (Sled.delete E k s).1 = .ok none
      ∧ Tree.get (Sled.delete E k s).1.index (E.index e) = none)
    ∧ (∀ (s' : Sled), Tree.get s'.data k = none →
        Sled.delete E k s' = (s', .error .Missing)) := by
  have hd : Sled.delete E k s
      = ({ data := Tree.del s.data k, index := Tree.del s.index (E.index e) }, .ok e) := by
    rw [Sled.delete, hget]
    simp only [hdes]
  refine ⟨⟨hd, ?_, ?_⟩, ?_⟩
  · rw [hd]
    simp only [Sled.fetch]
    rw [Tree.get_del_self _ (Tree.nodup_keys hordd)]
  · rw [hd]
    exact Tree.get_del_self _ (Tree.nodup_keys hord)
  · intro s' hnone
    rw [Sled.delete, hnone]

/-- Witness for C3 on `demo`: the store holds entity 5 only; deleting its key
empties the trees, and deleting from the empty store is `Missing`. -/
theorem C3_witness :
    (Sled.fetch demo [0, 5] (Sled.delete demo [0, 5]
        ⟨[([0, 5], [5])], [([1, 5], [5])]⟩).1 = .ok none
      ∧ Tree.get (Sled.delete demo [0, 5]
          ⟨[([0, 5], [5])], [([1, 5], [5])]⟩).1.index [1, 5] = none)
    ∧ Sled.delete demo [0, 5] Sled.empty = (Sled.empty, .error .Missing) := by
  have h := C3_delete_complete demo ⟨[([0, 5], [5])], [([1, 5], [5])]⟩ [0, 5] [5] 5
    (by simp [Tree.Ordered]) (by simp [Tree.Ordered]) rfl rfl
  exact ⟨⟨h.1.2.1, h.1.2.2⟩, h.2 Sled.empty rfl⟩

theorem bump_ne_nil {p : Bytes} (h : p ≠ []) : bump p ≠ [] := by
  cases p with
  | nil => exact absurd rfl h
  | cons b r => cases r <;> simp [bump]

/-- C4: with a non-empty prefix, `query` walks exactly the Index Tree entries
whose keys lie in `[prefix, prefix-with-last-byte-bumped)`, in stored order,
then applies the cursor skip, yields at most `limit` summaries, each
deserialized from the index value, and never consults the Data Tree. -/
theorem C4_query_covering {γ σ : Type} (E : Entity γ σ) (q : Query) (s : Sled)
    (hp : q.pre ≠ []) (hord : Tree.Ordered s.index) :
    (Sled.scan q s.index =
        (match q.after with
         | none => s.index.filter (fun kv => ble q.pre kv.1 && blt kv.1 (bump q.pre))
         | some a =>
             chop a (s.index.filter (fun kv => ble q.pre kv.1 && blt kv.1 (bump q.pre)))))
    ∧ Sled.query E q s = ((Sled.scan q s.index).take q.limit).map (deserItem E)
    ∧ (Sled.query E q s).length ≤ q.limit
    ∧ (∀ d', Sled.query E q ⟨d', s.index⟩ = Sled.query E q s) := by
  have hr : Sled.ranged q.pre s.index =
      s.index.filter (fun kv => ble q.pre kv.1 && blt kv.1 (bump q.pre)) := by
    rw [Sled.ranged, if_neg (bump_ne_nil hp), Tree.range_eq_filter _ _ _ hord]
  refine ⟨?_, rfl, ?_, fun d' => rfl⟩
  · rw [Sled.scan, hr]
  · rw [Sled.query, List.length_map]
    exact le_trans (List.length_take_le _ _) (le_refl _)

/-- Witness for C4 on `demo` with prefix `[1]` over a three-entry index. -/
theorem C4_witness :
    (Sled.query demo ⟨[1], none, 2⟩ ⟨[], [([0, 9], [9]), ([1, 0], [7]), ([1, 1], [8])]⟩).length ≤ 2
    ∧ Sled.query demo ⟨[1], none, 2⟩ ⟨[([5], [5])], [([0, 9], [9]), ([1, 0], [7]), ([1, 1], [8])]⟩
        = Sled.query demo ⟨[1], none, 2⟩ ⟨[], [([0, 9], [9]), ([1, 0], [7]), ([1, 1], [8])]⟩ := by
  have h := C4_query_covering demo ⟨[1], none, 2⟩
    ⟨[], [([0, 9], [9]), ([1, 0], [7]), ([1, 1], [8])]⟩ (by decide)
    (by simp [Tree.Ordered]; decide)
  exact ⟨h.2.2.1, h.2.2.2 [([5], [5])]⟩

theorem chop_eq_nil_of_not_mem {a : Bytes} {l : Tree} (h : a ∉ l.map Prod.fst) :
    chop a l = [] := by
  induction l with
  | nil => rfl
  | cons kv t ih =>
    simp only [List.map_cons, List.mem_cons, not_or] at h
    rw [chop, if_neg (fun he => h.1 he.symm)]
    exact ih h.2

/-- C10: when the `after` cursor matches no key inside the scanned range, the
skip loop consumes the whole range before anything is taken, so the query
yields no summaries even though entries matching the prefix exist. -/
theorem C10_cursor_miss {γ σ : Type} (E : Entity γ σ) (q : Query) (s : Sled) (a : Bytes)
    (hq : q.after = some a)
    (hmem : a ∉ (Sled.ranged q.pre s.index).map Prod.fst)
    (_hne : Sled.ranged q.pre s.index ≠ []) :
    Sled.query E q s = [] := by
  simp only [Sled.query, Sled.scan, hq, chop_eq_nil_of_not_mem hmem,
    List.take_nil, List.map_nil]

/-- Witness for C10: two entries match prefix `[1]`, the cursor `[2, 9]`
matches neither, and the query returns nothing. -/
theorem C10_witness :
    Sled.query demo ⟨[1], some [2, 9], 5⟩ ⟨[], [([1, 0], [7]), ([1, 1], [8])]⟩ = []
    ∧ Sled.ranged [1] [([1, 0], [7]), ([1, 1], [8])] ≠ [] :=
  ⟨C10_cursor_miss demo ⟨[1], some [2, 9], 5⟩ ⟨[], [([1, 0], [7]), ([1, 1], [8])]⟩
      [2, 9] rfl (by decide) (by decide),
   by decide⟩

/-- The scanned base range inherits the tree invariant. -/
theorem Tree.ordered_ranged {t : Tree} (p : Bytes) (h : Tree.Ordered t) :
    Tree.Ordered (Sled.ranged p t) := by
  rw [Sled.ranged]
  by_cases hb : bump p = []
  · rw [if_pos hb]; exact h
  · rw [if_neg hb, Tree.range]
    exact List.Pairwise.sublist
      ((List.takeWhile_sublist _).trans (List.dropWhile_sublist _)) h

/-- On a list with distinct keys, chopping at the key of the last element of
`take n` discards exactly the first `n` elements. -/
theorem chop_take_getLast {l : Tree} {n : Nat} {x : Bytes × Bytes}
    (hnd : (l.map Prod.fst).Nodup) (h : (l.take n).getLast? = some x) :
    chop x.1 l = l.drop n := by
  induction l generalizing n with
  | nil => rw [List.take_nil] at h; exact Option.noConfusion h
  | cons kv t ih =>
    simp only [List.map_cons, List.nodup_cons] at hnd
    cases n with
    | zero => exact Option.noConfusion h
    | succ m =>
      rw [List.take_succ_cons] at h
      cases htm : t.take m with
      | nil =>
        rw [htm] at h
        have hx : x = kv := by
          simp only [List.getLast?_singleton, Option.some.injEq] at h
          exact h.symm
        subst hx
        rw [chop, if_pos rfl, List.drop_succ_cons]
        have : m = 0 ∨ t = [] := List.take_eq_nil_iff.mp htm
        rcases this with hm | ht
        · rw [hm, List.drop_zero]
        · rw [ht, List.drop_nil]
      | cons y ys =>
        rw [htm] at h
        have h' : (t.take m).getLast? = some x := by
          rw [htm]
          exact h
        have hxm : x ∈ t := List.take_subset _ _ (List.mem_of_mem_getLast? h')
        have hne : kv.1 ≠ x.1 := by
          intro he
          exact hnd.1 (he ▸ List.mem_map.mpr ⟨x, hxm, rfl⟩)
        rw [chop, if_neg hne, List.drop_succ_cons]
        exact ih hnd.2 h'

theorem drop_of_take_add {γ : Type} (l : List γ) (m n : Nat) :
    (l.take (m + n)).drop m = (l.drop m).take n :=
  (List.take_drop m n l).symm

/-- C6: if the first page `query({prefix, limit:n1})` is non-empty and ends
at index key `a`, then `query({prefix, after:Some(a), limit:n2})` is exactly
the contiguous continuation — the drop of the combined query past the first
page — and the two pages concatenate to `query({prefix, limit:n1+n2})`. -/
theorem C6_pagination {γ σ : Type} (E : Entity γ σ) (s : Sled) (p : Bytes)
    (n1 n2 : Nat) (la : Bytes × Bytes)
    (hord : Tree.Ordered s.index)
    (hlast : ((Sled.ranged p s.index).take n1).getLast? = some la) :
    Sled.query E ⟨p, some la.1, n2⟩ s = (Sled.query E ⟨p, none, n1 + n2⟩ s).drop n1
    ∧ Sled.query E ⟨p, none, n1⟩ s ++ Sled.query E ⟨p, some la.1, n2⟩ s
        = Sled.query E ⟨p, none, n1 + n2⟩ s := by
  have hnd : ((Sled.ranged p s.index).map Prod.fst).Nodup :=
    Tree.nodup_keys (Tree.ordered_ranged p hord)
  have hchop : chop la.1 (Sled.ranged p s.index) = (Sled.ranged p s.index).drop n1 :=
    chop_take_getLast hnd hlast
  have h1 : Sled.query E ⟨p, some la.1, n2⟩ s
      = (((Sled.ranged p s.index).drop n1).take n2).map (deserItem E) := by
    simp only [Sled.query, Sled.scan, hchop]
  constructor
  · rw [h1]
    simp only [Sled.query, Sled.scan, ← List.map_drop, drop_of_take_add]
  · rw [h1]
    simp only [Sled.query, Sled.scan, ← List.map_append, ← List.take_add]

/-- Witness for C6 on `demo`: three entries under prefix `[1]`, first page of
size 1 ending at key `[1, 0]`, continued with limit 2. -/
theorem C6_witness :
    Sled.query demo ⟨[1], none, 1⟩ ⟨[], [([1, 0], [7]), ([1, 1], [8]), ([1, 2], [9])]⟩
      ++ Sled.query demo ⟨[1], some [1, 0], 2⟩
          ⟨[], [([1, 0], [7]), ([1, 1], [8]), ([1, 2], [9])]⟩
      = Sled.query demo ⟨[1], none, 1 + 2⟩
          ⟨[], [([1, 0], [7]), ([1, 1], [8]), ([1, 2], [9])]⟩ :=
  (C6_pagination demo ⟨[], [([1, 0], [7]), ([1, 1], [8]), ([1, 2], [9])]⟩ [1] 1 2
    ([1, 0], [7]) (by simp [Tree.Ordered]; decide) (by decide)).2

theorem insertAll_append (E : Entity γ σ) (l1 l2 : List γ) (s : Sled) :
    Sled.insertAll E (l1 ++ l2) s =
      (match Sled.insertAll E l1 s with
       | (s', none) => Sled.insertAll E l2 s'
       | (s', some e) => (s', some e)) := by
  induction l1 generalizing s with
  | nil => rfl
  | cons e rest ih =>
    rw [List.cons_append, Sled.insertAll, Sled.insertAll]
    cases h : Sled.insert E e s with
    | mk s' r =>
      cases r with
      | none => exact ih s'
      | some err => rfl

theorem mass_eq_insertAll (E : Entity γ σ) :
    ∀ (n : Nat) (l : List γ), l.length ≤ n → ∀ s, Sled.mass E l s = Sled.insertAll E l s := by
  intro n
  induction n with
  | zero =>
    intro l hl s
    have hnil : l = [] := List.eq_nil_of_length_eq_zero (Nat.le_zero.mp hl)
    subst hnil
    rw [Sled.mass]
    rfl
  | succ n ih =>
    intro l hl s
    rw [Sled.mass]
    by_cases h0 : (l.take CHUNK).length = 0
    · rw [dif_pos h0]
      have hnil : l = [] := by
        rw [List.length_take] at h0
        rcases Nat.min_eq_zero_iff.mp h0 with h | h
        · exact absurd h (by decide)
        · exact List.eq_nil_of_length_eq_zero h
      subst hnil
      rfl
    · rw [dif_neg h0]
      by_cases hlt : l.length < CHUNK
      · have htake : l.take CHUNK = l := List.take_of_length_le (Nat.le_of_lt hlt)
        rw [htake]
        cases hins : Sled.insertAll E l s with
        | mk s' r =>
          cases r with
          | none =>
            show (if l.length < CHUNK then (s', none) else Sled.mass E (l.drop CHUNK) s')
                = (s', none)
            rw [if_pos hlt]
          | some err => rfl
      · have hge : CHUNK ≤ l.length := Nat.le_of_not_lt hlt
        have htlen : (l.take CHUNK).length = CHUNK := by
          rw [List.length_take]
          omega
        have hdlen : (l.drop CHUNK).length ≤ n := by
          rw [List.length_drop]
          have hc : (0 : Nat) < CHUNK := by decide
          omega
        have hrhs : Sled.insertAll E l s =
            (match Sled.insertAll E (l.take CHUNK) s with
             | (s', none) => Sled.insertAll E (l.drop CHUNK) s'
             | (s', some e) => (s', some e)) := by
          conv_lhs => rw [← List.take_append_drop CHUNK l]
          exact insertAll_append E _ _ s
        cases hins : Sled.insertAll E (l.take CHUNK) s with
        | mk s' r =>
          rw [hins] at hrhs
          cases r with
          | none =>
            show (if (l.take CHUNK).length < CHUNK then (s', none)
                  else Sled.mass E (l.drop CHUNK) s')
                = Sled.insertAll E l s
            rw [htlen, if_neg (Nat.lt_irrefl CHUNK), ih _ hdlen s', hrhs]
          | some err =>
            show (s', some err) = Sled.insertAll E l s
            rw [hrhs]

/-- C8: `mass` consumes its input in chunks of the fixed size `CHUNK = 1000`
and behaves exactly like inserting the entities one by one under `insert`'s
transaction rule; when inserting `bad` fails after the prefix `l1` went in,
the error is returned, nothing after `bad` is inserted, and the state is
exactly the one reached after `l1`. -/
theorem C8_mass_chunked_abort (E : Entity γ σ) :
    CHUNK = 1000
    ∧ (∀ (l : List γ) (s : Sled), Sled.mass E l s = Sled.insertAll E l s)
    ∧ (∀ (l1 l2 : List γ) (bad : γ) (s s1 : Sled) (err : Error),
        Sled.insertAll E l1 s = (s1, none) →
        Sled.insert E bad s1 = (s1, some err) →
        Sled.mass E (l1 ++ bad :: l2) s = (s1, some err)) := by
  refine ⟨rfl, fun l s => mass_eq_insertAll E l.length l (le_refl _) s, ?_⟩
  intro l1 l2 bad s s1 err h1 hbad
  rw [mass_eq_insertAll E (l1 ++ bad :: l2).length _ (le_refl _) s,
    insertAll_append E l1 (bad :: l2) s, h1]
  show (match Sled.insert E bad s1 with
        | (s', none) => Sled.insertAll E l2 s'
        | (s', some e) => (s', some e)) = (s1, some err)
  rw [hbad]

/-- Witness for C8 on `fussy` (whose codec rejects 13): inserting
`[1, 13, 2]` stops at 13 with a `Format` error, keeping entity 1 stored. -/
theorem C8_witness :
    Sled.mass fussy [1, 13, 2] Sled.empty
      = (⟨[([0, 1], [1])], [([1, 1], [1])]⟩, some Error.Format) :=
  (C8_mass_chunked_abort fussy).2.2 [1] [2] 13 Sled.empty
    ⟨[([0, 1], [1])], [([1, 1], [1])]⟩ Error.Format rfl rfl

theorem touch_singleton (name : String) (el : Nat) (fl : Bool) (m : Metric) :
    Registry.touch [(name, m)] name el fl = [(name, Metric.record m el fl)] := by
  rw [Registry.touch, if_pos rfl]

theorem fold_touch_single (name : String) (rs : List (Nat × Bool)) (m : Metric) :
    rs.foldl (fun r x => Registry.touch r name x.1 x.2) [(name, m)]
      = [(name, rs.foldl (fun m x => Metric.record m x.1 x.2) m)] := by
  induction rs generalizing m with
  | nil => rfl
  | cons x rest ih =>
    rw [List.foldl_cons, List.foldl_cons, touch_singleton]
    exact ih _

theorem metric_fold (rs : List (Nat × Bool)) (m : Metric)
    (ht : m.time + (rs.map Prod.fst).sum < 2 ^ 64)
    (hc : m.count + (rs.filter (fun x => !x.2)).length < 2 ^ 64)
    (hf : m.fail + (rs.filter (fun x => x.2)).length < 2 ^ 64) :
    rs.foldl (fun m x => Metric.record m x.1 x.2) m
      = ⟨m.time + (rs.map Prod.fst).sum,
         m.count + (rs.filter (fun x => !x.2)).length,
         m.fail + (rs.filter (fun x => x.2)).length⟩ := by
  induction rs generalizing m with
  | nil => simp
  | cons x rest ih =>
    obtain ⟨el, b⟩ := x
    rw [List.map_cons, List.sum_cons] at ht ⊢
    cases b with
    | false =>
      have hfil1 : ((el, false) :: rest).filter (fun x => !x.2)
          = (el, false) :: rest.filter (fun x => !x.2) := by
        rw [List.filter_cons_of_pos]
        rfl
      have hfil2 : ((el, false) :: rest).filter (fun x => x.2)
          = rest.filter (fun x => x.2) := by
        rw [List.filter_cons_of_neg]
        simp
      rw [hfil1, List.length_cons] at hc ⊢
      rw [hfil2] at hf ⊢
      rw [List.foldl_cons]
      have hrec : Metric.record m el false = ⟨m.time + el, m.count + 1, m.fail⟩ := by
        rw [Metric.record]
        simp only [Bool.false_eq_true, if_false]
        have h1 : (m.time + el) % 2 ^ 64 = m.time + el := Nat.mod_eq_of_lt (by omega)
        have h2 : (m.count + 1) % 2 ^ 64 = m.count + 1 := Nat.mod_eq_of_lt (by omega)
        rw [h1, h2]
      have iht : m.time + el + (List.map Prod.fst rest).sum < 2 ^ 64 := by omega
      have ihc : m.count + 1 + (List.filter (fun x => !x.2) rest).length < 2 ^ 64 := by
        omega
      have ihf : m.fail + (List.filter (fun x => x.2) rest).length < 2 ^ 64 := hf
      rw [hrec, ih ⟨m.time + el, m.count + 1, m.fail⟩ iht ihc ihf]
      simp only []
      congr 1 <;> omega
    | true =>
      have hfil1 : ((el, true) :: rest).filter (fun x => !x.2)
          = rest.filter (fun x => !x.2) := by
        rw [List.filter_cons_of_neg]
        simp
      have hfil2 : ((el, true) :: rest).filter (fun x => x.2)
          = (el, true) :: rest.filter (fun x => x.2) := by
        rw [List.filter_cons_of_pos]
        rfl
      rw [hfil1] at hc ⊢
      rw [hfil2, List.length_cons] at hf ⊢
      rw [List.foldl_cons]
      have hrec : Metric.record m el true = ⟨m.time + el, m.count, m.fail + 1⟩ := by
        rw [Metric.record]
        simp only [if_true]
        have h1 : (m.time + el) % 2 ^ 64 = m.time + el := Nat.mod_eq_of_lt (by omega)
        have h2 : (m.fail + 1) % 2 ^ 64 = m.fail + 1 := Nat.mod_eq_of_lt (by omega)
        rw [h1, h2]
      have iht : m.time + el + (List.map Prod.fst rest).sum < 2 ^ 64 := by omega
      have ihc : m.count + (List.filter (fun x => !x.2) rest).length < 2 ^ 64 := hc
      have ihf : m.fail + 1 + (List.filter (fun x => x.2) rest).length < 2 ^ 64 := by
        omega
      rw [hrec, ih ⟨m.time + el, m.count, m.fail + 1⟩ iht ihc ihf]
      simp only []
      congr 1 <;> omega

/-- C9: `Registry::record` under lock contention leaves the registry
untouched (the sample goes into a throwaway metric); in the uncontended case,
a run of `N` successful and `M` failed samples for one name leaves that
name's metric with `N` successes, `M` failures and the summed elapsed time,
and `stats()` reports the counts together with a non-negative average
latency. -/
theorem C9_registry_record (name : String) (rs : List (Nat × Bool))
    (hne : rs ≠ [])
    (ht : (rs.map Prod.fst).sum < 2 ^ 64)
    (hc : (rs.filter (fun x => !x.2)).length < 2 ^ 64)
    (hf : (rs.filter (fun x => x.2)).length < 2 ^ 64)
    (hcf : (rs.filter (fun x => !x.2)).length + (rs.filter (fun x => x.2)).length < 2 ^ 64) :
    (∀ (r : Registry) (el : Nat) (fl : Bool), Registry.record r name el fl true = r)
    ∧ Registry.find
        (rs.foldl (fun r x => Registry.record r name x.1 x.2 false) Registry.new) name
      = some ⟨(rs.map Prod.fst).sum, (rs.filter (fun x => !x.2)).length,
              (rs.filter (fun x => x.2)).length⟩
    ∧ Metric.stats ⟨(rs.map Prod.fst).sum, (rs.filter (fun x => !x.2)).length,
              (rs.filter (fun x => x.2)).length⟩
      = some ((rs.filter (fun x => !x.2)).length + (rs.filter (fun x => x.2)).length,
              (rs.filter (fun x => !x.2)).length, (rs.filter (fun x => x.2)).length,
              if 0 < (rs.filter (fun x => !x.2)).length
              then (rs.map Prod.fst).sum / (rs.filter (fun x => !x.2)).length else 0)
    ∧ 0 ≤ (if 0 < (rs.filter (fun x => !x.2)).length
           then (rs.map Prod.fst).sum / (rs.filter (fun x => !x.2)).length else 0) := by
  have hstep : (fun (r : Registry) (x : Nat × Bool) => Registry.record r name x.1 x.2 false)
      = fun r x => Registry.touch r name x.1 x.2 := rfl
  have hreg : rs.foldl (fun r x => Registry.touch r name x.1 x.2) Registry.new
      = [(name, rs.foldl (fun m x => Metric.record m x.1 x.2) Metric.new)] := by
    cases rs with
    | nil => exact absurd rfl hne
    | cons x rest =>
      rw [List.foldl_cons, List.foldl_cons]
      have h0 : Registry.touch Registry.new name x.1 x.2
          = [(name, Metric.record Metric.new x.1 x.2)] := rfl
      rw [h0, fold_touch_single]
  refine ⟨fun r el fl => rfl, ?_, ?_, Nat.zero_le _⟩
  · rw [hstep, hreg,
      metric_fold rs Metric.new (by simpa [Metric.new] using ht)
        (by simpa [Metric.new] using hc) (by simpa [Metric.new] using hf)]
    rw [Registry.find, if_pos rfl]
    simp [Metric.new]
  · have htot : ((rs.filter (fun x => !x.2)).length + (rs.filter (fun x => x.2)).length)
        = rs.length := by
      have h : rs.length
          = (rs.filter fun x => x.2).length + (rs.filter fun x => !x.2).length :=
        List.length_eq_length_filter_add _
      omega
    have hpos : 0 < rs.length := List.length_pos.mpr hne
    simp only [Metric.stats]
    rw [Nat.mod_eq_of_lt hcf, if_neg (by omega)]

/-- Witness for C9: two successes (5 ns and 3 ns) and one failure (2 ns)
recorded for the operation "op". -/
theorem C9_witness :
    Registry.find ([(5, false), (3, false), (2, true)].foldl
        (fun r x => Registry.record r "op" x.1 x.2 false) Registry.new) "op"
      = some ⟨10, 2, 1⟩
    ∧ Metric.stats ⟨10, 2, 1⟩ = some (3, 2, 1, 5) := by
  have h := C9_registry_record "op" [(5, false), (3, false), (2, true)]
    (by decide) (by decide) (by decide) (by decide) (by decide)
  exact ⟨h.2.1, h.2.2.1⟩

/-- C7 as stated is false: `Pool::get` binds the permit to the local
`_permit`, which is dropped when `get` returns, so the permit is *not* held
for the duration of the checkout.  Starting from a pool of size 1, two
completed `get` calls in sequence leave two outstanding checkouts — a
reachable state with more checkouts than `size`. -/
theorem C7_counterexample :
    PoolReach (poolInit 1) ⟨1, 1, 0, 2⟩
    ∧ ¬ ((⟨1, 1, 0, 2⟩ : PoolState).checkouts ≤ (poolInit 1).size) := by
  constructor
  · have s1 : PoolStep ⟨1, 1, 0, 0⟩ ⟨1, 0, 1, 0⟩ := PoolStep.acquire ⟨1, 1, 0, 0⟩ (by decide)
    have s2 : PoolStep ⟨1, 0, 1, 0⟩ ⟨1, 1, 0, 1⟩ := PoolStep.ret ⟨1, 0, 1, 0⟩ (by decide)
    have s3 : PoolStep ⟨1, 1, 0, 1⟩ ⟨1, 0, 1, 1⟩ := PoolStep.acquire ⟨1, 1, 0, 1⟩ (by decide)
    have s4 : PoolStep ⟨1, 0, 1, 1⟩ ⟨1, 1, 0, 2⟩ := PoolStep.ret ⟨1, 0, 1, 1⟩ (by decide)
    exact ((((Relation.ReflTransGen.refl.tail s1).tail s2).tail s3).tail s4)
  · decide

/-- C7 amended: `new(size, init)` eagerly creates `size` handles and the
first failing `init` call aborts construction; the semaphore permit is held
only while `get` itself executes, so in every reachable state
`avail + holding = size` — the semaphore bounds the number of callers
concurrently *inside* `get` by `size`, not the number of outstanding
checkouts — and every successful `get` returns a clone of handle index 0. -/
theorem C7_pool_semaphore (T : Type) :
    (∀ (n : Nat) (s : PoolState), PoolReach (poolInit n) s → s.avail + s.holding = n)
    ∧ (∀ (n : Nat) (s : PoolState), PoolReach (poolInit n) s → s.holding ≤ n)
    ∧ (∀ (size : Nat) (init : Nat → Except Error T) (p : Pool T),
        Pool.new T size init = .ok p → p.conn.length = size)
    ∧ (∀ (size : Nat) (init : Nat → Except Error T) (i : Nat) (e : Error),
        i < size → (∀ j, j < i → ∃ c, init j = .ok c) → init i = .error e →
        Pool.new T size init = .error e)
    ∧ (∀ (p : Pool T) (c : T) (rest : List T), p.conn = c :: rest → Pool.got p = some c) := by
  have hbuildlen : ∀ (init : Nat → Except Error T) (n i : Nat) (l : List T),
      Pool.build init i n = .ok l → l.length = n := by
    intro init n
    induction n with
    | zero =>
      intro i l h
      cases h
      rfl
    | succ n ih =>
      intro i l h
      rw [Pool.build] at h
      cases hi : init i with
      | error e => rw [hi] at h; exact Except.noConfusion h
      | ok c =>
        rw [hi] at h
        cases hb : Pool.build init (i + 1) n with
        | error e => rw [hb] at h; exact Except.noConfusion h
        | ok rest =>
          rw [hb] at h
          cases h
          rw [List.length_cons, ih (i + 1) rest hb]
  have hinv : ∀ (n : Nat) (s : PoolState), PoolReach (poolInit n) s →
      s.avail + s.holding = n := by
    intro n s h
    induction h with
    | refl => rfl
    | tail _ hstep ih =>
      cases hstep with
      | acquire h => simp only []; omega
      | ret h => simp only []; omega
      | fin h => simp only []; omega
  refine ⟨hinv, fun n s h => by have := hinv n s h; omega, ?_, ?_, ?_⟩
  · intro size init p h
    rw [Pool.new] at h
    cases hb : Pool.build init 0 size with
    | error e => rw [hb] at h; exact Except.noConfusion h
    | ok conn =>
      rw [hb] at h
      cases h
      exact hbuildlen init size 0 conn hb
  · intro size init i e hi hok hbad
    have hfail : ∀ (m n j : Nat), j + m = i → m < n → (∀ k, k < m → ∃ c, init (j + k) = .ok c) →
        Pool.build init j n = .error e := by
      intro m
      induction m with
      | zero =>
        intro n j hj hn _
        cases n with
        | zero => omega
        | succ n =>
          rw [Pool.build]
          have : j = i := by omega
          rw [this, hbad]
      | succ m ih =>
        intro n j hj hn hoks
        cases n with
        | zero => omega
        | succ n =>
          rw [Pool.build]
          obtain ⟨c, hc⟩ := hoks 0 (Nat.succ_pos m)
          rw [Nat.add_zero] at hc
          rw [hc]
          rw [ih n (j + 1) (by omega) (by omega) (fun k hk => by
            have hx := hoks (k + 1) (by omega)
            have h2 : j + 1 + k = j + (k + 1) := by omega
            rw [h2]
            exact hx)]
    rw [Pool.new, hfail i size 0 (Nat.zero_add i) hi (fun k hk => by
      have := hok k hk
      rwa [Nat.zero_add])]
  · intro p c rest h
    rw [Pool.got, h]
    rfl

/-- Witness for C7's amended theorem at `T = Nat`: a reachable state of a
size-2 pool keeps `avail + holding = 2`, a two-handle pool is built eagerly,
a failing `init` aborts, and `get` hands out handle index 0. -/
theorem C7_pool_witness :
    ((⟨2, 1, 1, 0⟩ : PoolState).avail + (⟨2, 1, 1, 0⟩ : PoolState).holding = 2)
    ∧ (∀ (p : Pool Nat), Pool.new Nat 2 (fun _ => .ok 7) = .ok p → p.conn.length = 2)
    ∧ Pool.new Nat 2 (fun i => if i = 1 then .error .Input else .ok 7) = .error .Input
    ∧ Pool.got ⟨[7, 8], 2⟩ = some 7 := by
  refine ⟨?_, ?_, ?_, ?_⟩
  · exact (C7_pool_semaphore Nat).1 2 ⟨2, 1, 1, 0⟩
      (Relation.ReflTransGen.refl.tail (PoolStep.acquire (poolInit 2) (by decide)))
  · exact fun p hp => (C7_pool_semaphore Nat).2.2.1 2 (fun _ => .ok 7) p hp
  · exact (C7_pool_semaphore Nat).2.2.2.1 2 (fun i => if i = 1 then .error .Input else .ok 7)
      1 .Input (by decide) (fun j hj => ⟨7, by interval_cases j; rfl⟩) rfl
  · exact (C7_pool_semaphore Nat).2.2.2.2 ⟨[7, 8], 2⟩ 7 [8] rfl

theorem blt_nil_right (u : Bytes) : blt u [] = false := by
  cases u <;> rfl

/-- Big-endian encoding of `w` bytes is strictly monotone below `256 ^ w`. -/
theorem beBytes_lt : ∀ (w a b : Nat), a < b → b < 256 ^ w →
    blt (beBytes w a) (beBytes w b) = true := by
  intro w
  induction w with
  | zero =>
    intro a b hab hb
    rw [Nat.pow_zero] at hb
    omega
  | succ w ih =>
    intro a b hab hb
    have hbp : 0 < 256 ^ w := Nat.pos_pow_of_pos w (by decide)
    have hahi : a / 256 ^ w < 256 := by
      rw [Nat.div_lt_iff_lt_mul hbp]
      calc a < b := hab
        _ < 256 ^ (w + 1) := hb
        _ = 256 * 256 ^ w := by rw [Nat.pow_succ, Nat.mul_comm]
    have hbhi : b / 256 ^ w < 256 := by
      rw [Nat.div_lt_iff_lt_mul hbp]
      calc b < 256 ^ (w + 1) := hb
        _ = 256 * 256 ^ w := by rw [Nat.pow_succ, Nat.mul_comm]
    rw [beBytes, beBytes, Nat.mod_eq_of_lt hahi, Nat.mod_eq_of_lt hbhi]
    have hle : a / 256 ^ w ≤ b / 256 ^ w := Nat.div_le_div_right (Nat.le_of_lt hab)
    rcases Nat.lt_or_ge (a / 256 ^ w) (b / 256 ^ w) with hlt | hge
    · simp only [blt, if_pos hlt]
    · have heq : a / 256 ^ w = b / 256 ^ w := Nat.le_antisymm hle hge
      rw [heq]
      simp only [blt, Nat.lt_irrefl, if_neg (Nat.lt_irrefl _)]
      apply ih
      · have ha := Nat.div_add_mod a (256 ^ w)
        have hb2 := Nat.div_add_mod b (256 ^ w)
        rw [heq] at ha
        omega
      · exact Nat.mod_lt _ hbp

/-- The first half of C5 as a statement about `Key::time` suffixes. -/
theorem reversed_time_lt {t1 t2 : Nat} (h1 : t1 < 2 ^ 128) (_h2 : t2 < 2 ^ 128)
    (hlt : t1 < t2) :
    blt (beBytes 16 (UMAX - t2)) (beBytes 16 (UMAX - t1)) = true := by
  apply beBytes_lt
  · rw [UMAX]
    omega
  · have h : (256 : Nat) ^ 16 = 2 ^ 128 := by decide
    rw [h, UMAX]
    omega

theorem bump_append_last (p0 : Bytes) (b : Nat) (hb : b < 255) :
    bump (p0 ++ [b]) = p0 ++ [b + 1] := by
  induction p0 with
  | nil =>
    simp only [List.nil_append, bump]
    rw [Nat.min_eq_left (by omega)]
  | cons c p0 ih =>
    cases p0 with
    | nil =>
      simp only [List.cons_append, List.nil_append, bump] at ih ⊢
      rw [ih]
    | cons d p0 =>
      simp only [List.cons_append, bump] at ih ⊢
      exact congrArg (List.cons c) ih

theorem Tree.keys_put_subset {t : Tree} {k v k' : Bytes}
    (h : k' ∈ (Tree.put t k v).map Prod.fst) : k' = k ∨ k' ∈ t.map Prod.fst := by
  obtain ⟨ab, hab, he⟩ := List.mem_map.mp h
  rcases Tree.mem_or_eq_of_mem_put hab with hm | heq
  · exact Or.inr (he ▸ List.mem_map.mpr ⟨ab, hm, rfl⟩)
  · subst heq
    exact Or.inl he.symm

/-- Folding distinct fresh keys into an ordered tree keeps it ordered and
adds exactly those pairs (as a permutation). -/
theorem fold_put_ordered_perm (keyOf valOf : γ → Bytes) :
    ∀ (es : List γ) (t : Tree),
      Tree.Ordered t →
      es.Pairwise (fun a b => keyOf a ≠ keyOf b) →
      (∀ e ∈ es, keyOf e ∉ t.map Prod.fst) →
      Tree.Ordered (es.foldl (fun t e => Tree.put t (keyOf e) (valOf e)) t)
      ∧ List.Perm (es.foldl (fun t e => Tree.put t (keyOf e) (valOf e)) t)
          (es.map (fun e => (keyOf e, valOf e)) ++ t) := by
  intro es
  induction es with
  | nil =>
    intro t hord _ _
    exact ⟨hord, List.Perm.refl t⟩
  | cons e rest ih =>
    intro t hord hpw hfresh
    rw [List.pairwise_cons] at hpw
    have hket : keyOf e ∉ t.map Prod.fst := hfresh e (List.mem_cons_self e rest)
    have hordt' : Tree.Ordered (Tree.put t (keyOf e) (valOf e)) :=
      Tree.ordered_put _ _ hord
    have hfresh' : ∀ e' ∈ rest, keyOf e' ∉ (Tree.put t (keyOf e) (valOf e)).map Prod.fst := by
      intro e' he' hmem
      rcases Tree.keys_put_subset hmem with heq | hmem'
      · exact hpw.1 e' he' heq.symm
      · exact hfresh e' (List.mem_cons_of_mem e he') hmem'
    have hperm' : List.Perm (Tree.put t (keyOf e) (valOf e)) ((keyOf e, valOf e) :: t) :=
      Tree.put_perm _ _ hket
    obtain ⟨ho, hp⟩ := ih (Tree.put t (keyOf e) (valOf e)) hordt' hpw.2 hfresh'
    refine ⟨ho, ?_⟩
    rw [List.map_cons, List.cons_append]
    exact hp.trans ((List.Perm.append_left _ hperm').trans List.perm_middle)

/-- A run of `insert` calls whose serializations all succeed reports no
error, and builds exactly the two folds of tree writes. -/
theorem insertAll_ok (E : Entity γ σ) (vser sser : γ → Bytes) :
    ∀ (es : List γ) (s : Sled),
      (∀ e ∈ es, E.value.ser e = some (vser e)) →
      (∀ e ∈ es, E.brief.ser (E.summary e) = some (sser e)) →
      Sled.insertAll E es s =
        (⟨es.foldl (fun t e => Tree.put t (E.key e) (vser e)) s.data,
          es.foldl (fun t e => Tree.put t (E.index e) (sser e)) s.index⟩, none) := by
  intro es
  induction es with
  | nil => intro s _ _; rfl
  | cons e rest ih =>
    intro s hser hsum
    rw [Sled.insertAll,
      insert_unfold E e s (vser e) (sser e) (hser e (List.mem_cons_self e rest))
        (hsum e (List.mem_cons_self e rest))]
    simp only [List.foldl_cons]
    exact ih _ (fun e' he' => hser e' (List.mem_cons_of_mem e he'))
      (fun e' he' => hsum e' (List.mem_cons_of_mem e he'))

/-- C5: the 16-byte big-endian encoding of `u128::MAX − t` appended by
`Key::time` reverses the order of timestamps under the lexicographic byte
order; consequently, after inserting entities with strictly increasing
creation times under a reversed-timestamp-suffixed index prefix `p0 ++ [b]`,
`query({prefix, limit : N})` returns their summaries in strictly descending
creation-time order — the reversal of insertion order — so the first result
is the most recently created entity. -/
theorem C5_reversed_time_descending {γ σE : Type} (E : Entity γ σE) (tm : γ → Nat)
    (vser sser : γ → Bytes) (p0 : Bytes) (b : Nat) (es : List γ) (N : Nat)
    (hb : b < 255)
    (hidx : ∀ e ∈ es, E.index e = Key.time (p0 ++ [b]) (tm e))
    (htm : es.Pairwise (fun x y => tm x < tm y))
    (hbound : ∀ e ∈ es, tm e < 2 ^ 128)
    (hser : ∀ e ∈ es, E.value.ser e = some (vser e))
    (hsum : ∀ e ∈ es, E.brief.ser (E.summary e) = some (sser e))
    (hrt : ∀ e ∈ es, E.brief.deser (sser e) = some (E.summary e)) :
    (∀ t1 t2, t1 < 2 ^ 128 → t2 < 2 ^ 128 → t1 < t2 →
        blt (beBytes 16 (UMAX - t2)) (beBytes 16 (UMAX - t1)) = true)
    ∧ Sled.query E ⟨p0 ++ [b], none, N⟩ (Sled.insertAll E es Sled.empty).1
        = (es.reverse.take N).map (fun e => Except.ok (E.summary e)) := by
  refine ⟨fun t1 t2 h1 h2 hlt => reversed_time_lt h1 h2 hlt, ?_⟩
  have hkey : ∀ x ∈ es, ∀ y ∈ es, tm y < tm x →
      blt (E.index x) (E.index y) = true := by
    intro x hx y hy hlt
    rw [hidx x hx, hidx y hy, Key.time, Key.time, blt_append_left]
    exact reversed_time_lt (hbound y hy) (hbound x hx) hlt
  have hne : es.Pairwise (fun a b => E.index a ≠ E.index b) := by
    refine List.Pairwise.imp_of_mem ?_ htm
    intro a b ha hb' hab
    exact fun he => blt_ne (hkey b hb' a ha hab) he.symm
  have hfold := fold_put_ordered_perm E.index sser es [] (by simp [Tree.Ordered])
    hne (by simp)
  have hstate := insertAll_ok E vser sser es Sled.empty hser hsum
  have hTord : Tree.Ordered (es.reverse.map (fun e => (E.index e, sser e))) := by
    rw [Tree.Ordered, List.pairwise_map, List.pairwise_reverse]
    refine List.Pairwise.imp_of_mem ?_ htm
    intro a b ha hb' hab
    exact hkey b hb' a ha hab
  have hperm : List.Perm (es.foldl (fun t e => Tree.put t (E.index e) (sser e)) [])
      (es.reverse.map (fun e => (E.index e, sser e))) := by
    have h1 := hfold.2
    rw [List.append_nil] at h1
    rw [List.map_reverse]
    exact h1.trans (List.reverse_perm _).symm
  haveI : IsAntisymm (Bytes × Bytes) (fun a b => blt a.1 b.1 = true) :=
    ⟨fun a b hab hba => absurd hba (by simp [blt_asymm hab])⟩
  have hLT : es.foldl (fun t e => Tree.put t (E.index e) (sser e)) []
      = es.reverse.map (fun e => (E.index e, sser e)) :=
    List.eq_of_perm_of_sorted hperm hfold.1 hTord
  have hall : ∀ kv ∈ es.reverse.map (fun e => (E.index e, sser e)),
      (ble (p0 ++ [b]) kv.1 && blt kv.1 (bump (p0 ++ [b]))) = true := by
    intro kv hkv
    obtain ⟨e, he, hkve⟩ := List.mem_map.mp hkv
    have hes : e ∈ es := List.mem_reverse.mp he
    subst hkve
    simp only [hidx e hes, Key.time]
    rw [Bool.and_eq_true]
    constructor
    · rw [ble]
      have hx : blt ((p0 ++ [b]) ++ beBytes 16 (UMAX - tm e)) ((p0 ++ [b]) ++ []) =
          blt (beBytes 16 (UMAX - tm e)) [] := blt_append_left _ _ _
      rw [List.append_nil] at hx
      rw [hx, blt_nil_right]
      rfl
    · rw [bump_append_last p0 b hb, List.append_assoc, ← List.singleton_append,
        blt_append_left]
      simp [blt]
  have hranged : Sled.ranged (p0 ++ [b])
      (es.reverse.map (fun e => (E.index e, sser e)))
      = es.reverse.map (fun e => (E.index e, sser e)) := by
    rw [Sled.ranged, if_neg (bump_ne_nil (by simp)),
      Tree.range_eq_filter _ _ _ hTord, List.filter_eq_self.mpr hall]
  rw [Sled.query, hstate]
  simp only [Sled.scan, Sled.empty]
  rw [hLT, hranged, ← List.map_take]
  rw [List.map_map]
  refine List.map_eq_map_iff.mpr ?_
  intro e he
  have hes : e ∈ es := List.mem_reverse.mp (List.take_subset _ _ he)
  simp only [Function.comp, deserItem, hrt e hes]

/-- Witness for C5 on a timestamp-indexed entity: inserting values with
times 3 then 5 under prefix `[1, 0]` makes the time-5 entity the first query
result. -/
theorem C5_witness :
    Sled.query timed ⟨[1, 0], none, 2⟩ (Sled.insertAll timed [3, 5] Sled.empty).1
      = [Except.ok 5, Except.ok 3] := by
  have h := C5_reversed_time_descending timed (fun n => n) (fun n => [n]) (fun n => [n])
    [1] 0 [3, 5] 2 (by decide) (fun e he => rfl) (by decide) (by decide)
    (fun e he => rfl) (fun e he => rfl) (fun e he => rfl)
  exact h.2

end Bedrock
